import Mathlib

/-!
# Verification of the TypoGard-Crates typosquatting detection engine

Shallow embedding of `typogard_crates.py`: crate names are lists of
characters, descriptions are optional strings, the external NLP model and
the external Levenshtein routine are opaque parameters, and machine side
effects (database, HTTP) are out of scope.  Fallible code returns
`Except`.
-/

namespace Typogard

/-- A crate name, embedded as its list of characters. -/
abbrev Name := List Char

/-- `ALLOWED_CHARACTERS`: the list of characters allowed in a package name. -/
def ALLOWED_CHARACTERS : List Char :=
  "ABCDEFGHIJKLMNOPQRSTUVWXYZabcdefghijklmnopqrstuvwxyz1234567890-_".toList

/-- The character class of `CRATE_NAME_REGEX` (`[A-Za-z0-9_-]`). -/
def isAllowedChar (c : Char) : Bool :=
  c.isAlpha || c.isDigit || c = '-' || c = '_'

/-- An exact full match of `[A-Za-z0-9_-]+`: a non-empty name over the
allowed alphabet.  This is what the spec calls a valid package name; the
code's actual filter `CRATE_NAME_REGEX.search` is the weaker
`crateNameSearch` below. -/
def validCrateName (n : Name) : Bool :=
  !n.isEmpty && n.all isAllowedChar

/-- `CRATE_NAME_REGEX.search(bf) is not None` for the pattern
`^[A-Za-z0-9_-]+$` without `MULTILINE`: `^` anchors at position 0, and
Python's `$` matches at the end of the string **or just before one
trailing newline**, so the accepted strings are a non-empty run of
allowed characters optionally followed by a single final `'\n'`. -/
def crateNameSearch (n : Name) : Bool :=
  (!n.isEmpty && n.all isAllowedChar) ||
  (n.getLast? == some '\n' && !n.dropLast.isEmpty &&
    n.dropLast.all isAllowedChar)

/-- One delimiter character of `DELIMITER_REGEX` (`[_-]`). -/
def isDelim (c : Char) : Bool :=
  c = '-' || c = '_'

/-- `DELIMITERS = ['', '-', '_']`. -/
def DELIMITERS : List Name := [[], ['-'], ['_']]

/-- Per-crate metadata row, as assembled by `populate_crate_lists`. -/
structure Crate where
  description : Option String
  authors : List String
  homepage : Option String
  repository : Option String
  documentation : Option String
  downloads : Nat
deriving DecidableEq

/-- The read-only engine context: the global dictionaries built during
loading (`crates`, `popular_package_list`/`popular_package_set`,
`popular_bitflips`) together with the parsed thresholds from `args`.
The Python float threshold is embedded as a rational. -/
structure Ctx where
  crates : Name → Crate
  crateNames : List Name
  popular : List Name
  popular_bitflips : List (Name × List Name)
  similarity_threshold : ℚ
  levenshtein_threshold : Nat

/-- The external text model and edit-distance routine, opaque services:
`hasVector d` is `bool(nlp(d).vector_norm)`, `similarity d1 d2` is
`nlp(d1).similarity(nlp(d2))`, and `lev` is
`rapidfuzz.distance.Levenshtein.distance` on the raw arguments the code
passes (the second may be `None`). -/
structure Nlp where
  hasVector : String → Bool
  similarity : String → String → ℚ
  lev : String → Option String → Nat

/-- The test `d is None or d.strip() == ''` used by `filter_targets`:
a missing, empty or whitespace-only description. -/
def isEmptyOrWS (d : Option String) : Bool :=
  match d with
  | none => true
  | some s => s.toList.all (·.isWhitespace)

/-- `same_author(p1, p2)`: the two crates' author lists share an entry. -/
def same_author (ctx : Ctx) (p1 p2 : Name) : Bool :=
  (ctx.crates p1).authors.any fun a => decide (a ∈ (ctx.crates p2).authors)

/-- `get_most_popular_package(packages)`: first popular-list element that
occurs in `packages`, else the first element of `packages`. -/
def get_most_popular_package (ctx : Ctx) (packages : List Name) : Name :=
  match ctx.popular.find? (fun p => decide (p ∈ packages)) with
  | some p => p
  | none => packages.headD []

/-- The membership-and-ownership test every mutator applies before
recording a target: `s in popular_package_set and not
same_author(package_name, s) and s != package_name`. -/
def admissible (ctx : Ctx) (package_name s : Name) : Bool :=
  decide (s ∈ ctx.popular) && !(same_author ctx package_name s) &&
    decide (s ≠ package_name)

/-- The shared epilogue of the mutators: `if return_all or len == 0`
return everything, otherwise collapse to the most popular match. -/
def collapseTargets (ctx : Ctx) (return_all : Bool) (tgts : List Name) :
    List Name :=
  if return_all || tgts.isEmpty then tgts
  else [get_most_popular_package ctx tgts]

/-!
## The version-number regular expression

`VERSION_NUMBER_REGEX = re.compile('^(.*?)[_-]?\d+$')`.  The lazy group
is found by trying prefixes of increasing length; at each split the
engine first lets `[_-]?` consume one delimiter, then requires a
non-empty all-digit remainder.
-/

/-- `\d+` matched against an entire (non-empty) remainder. -/
def digitsNonEmpty (l : List Char) : Bool :=
  !l.isEmpty && l.all (·.isDigit)

/-- Whether `[_-]?\d+$` matches the whole remainder: `[_-]?` first
greedily takes a leading delimiter, then backtracks to the empty match. -/
def vnTail : List Char → Bool
  | [] => false
  | c :: cs => (isDelim c && digitsNonEmpty cs) || digitsNonEmpty (c :: cs)

/-- `VERSION_NUMBER_REGEX.match(pn)`: the lazy group `(.*?)` grows from
the empty prefix, so the first split whose remainder matches `[_-]?\d+$`
provides group 1. Returns `none` when the regex does not match. -/
def vnMatch : List Char → Option (List Char)
  | [] => none
  | c :: cs =>
    if vnTail (c :: cs) then some []
    else (vnMatch cs).map (c :: ·)

/-- Whether a name's final character is a digit. -/
def endsInDigit (c : Name) : Bool :=
  match c.getLast? with
  | some ch => ch.isDigit
  | none => false

/-- `version_numbers(package_name)`: strip a trailing version-number
suffix and test the remaining prefix. -/
def version_numbers (ctx : Ctx) (package_name : Name) : List Name :=
  match vnMatch package_name with
  | some s =>
    if admissible ctx package_name s then [s] else []
  | none => []

/-!
## The similarity filter (`filter_targets`)
-/

/-- The semantic-mode loop body of `filter_targets`: skip targets with a
blank description, abort (`raise ValueError`) when a non-blank target
description has no vector norm, and retain a target exactly when the
similarity strictly exceeds the threshold. -/
def semanticScan (ctx : Ctx) (nlp : Nlp) (refdesc : String) :
    List Name → Except String (List (Name × ℚ))
  | [] => .ok []
  | t :: ts =>
    let d := (ctx.crates t).description
    if isEmptyOrWS d then semanticScan ctx nlp refdesc ts
    else if !(nlp.hasVector (d.getD "")) then
      .error ("No vector_norm for potential target " ++ String.mk t)
    else
      match semanticScan ctx nlp refdesc ts with
      | .error e => .error e
      | .ok rest =>
        let sim := nlp.similarity refdesc (d.getD "")
        .ok (if ctx.similarity_threshold < sim then (t, sim) :: rest else rest)

/-- `filter_targets(nlp, package, potential_targets)`: the description
similarity filter.  Blank candidate description: keep exactly the
blank-description targets with sentinel score 100.  Zero-norm candidate
embedding: Levenshtein fallback with strict `<` threshold.  Otherwise the
semantic scan. -/
def filter_targets (ctx : Ctx) (nlp : Nlp) (package : Name)
    (potential_targets : List Name) : Except String (List (Name × ℚ)) :=
  let cd := (ctx.crates package).description
  if isEmptyOrWS cd then
    .ok (((potential_targets.filter
        (fun t => isEmptyOrWS (ctx.crates t).description))).map
        (fun t => (t, (100 : ℚ))))
  else
    let refdesc := cd.getD ""
    if !(nlp.hasVector refdesc) then
      .ok (potential_targets.filterMap fun t =>
        let dist := nlp.lev refdesc (ctx.crates t).description
        if dist < ctx.levenshtein_threshold then some (t, (dist : ℚ))
        else none)
    else
      semanticScan ctx nlp refdesc potential_targets

/-!
## The name mutators
-/

/-- `TYPOS`: the QWERTY-locality / visual-similarity replacement table.
`none` models a character absent from the dict. -/
def TYPOS : Char → Option (List String) := fun c =>
  match c with
  | '1' => some ["2", "q", "i", "l"]
  | '2' => some ["1", "q", "w", "3"]
  | '3' => some ["2", "w", "e", "4"]
  | '4' => some ["3", "e", "r", "5"]
  | '5' => some ["4", "r", "t", "6", "s"]
  | '6' => some ["5", "t", "y", "7"]
  | '7' => some ["6", "y", "u", "8"]
  | '8' => some ["7", "u", "i", "9"]
  | '9' => some ["8", "i", "o", "0"]
  | '0' => some ["9", "o", "p", "-"]
  | '-' => some ["_", "0", "p", ".", ""]
  | '_' => some ["-", "0", "p", ".", ""]
  | 'q' => some ["1", "2", "w", "a"]
  | 'w' => some ["2", "3", "e", "s", "a", "q", "vv"]
  | 'e' => some ["3", "4", "r", "d", "s", "w"]
  | 'r' => some ["4", "5", "t", "f", "d", "e"]
  | 't' => some ["5", "6", "y", "g", "f", "r"]
  | 'y' => some ["6", "7", "u", "h", "t", "i"]
  | 'u' => some ["7", "8", "i", "j", "y", "v"]
  | 'i' => some ["1", "8", "9", "o", "l", "k", "j", "u", "y"]
  | 'o' => some ["9", "0", "p", "l", "i"]
  | 'p' => some ["0", "-", "o"]
  | 'a' => some ["q", "w", "s", "z"]
  | 's' => some ["w", "d", "x", "z", "a", "5"]
  | 'd' => some ["e", "r", "f", "c", "x", "s"]
  | 'f' => some ["r", "g", "v", "c", "d"]
  | 'g' => some ["t", "h", "b", "v", "f"]
  | 'h' => some ["y", "j", "n", "b", "g"]
  | 'j' => some ["u", "i", "k", "m", "n", "h"]
  | 'k' => some ["i", "o", "l", "m", "j"]
  | 'l' => some ["i", "o", "p", "k", "1"]
  | 'z' => some ["a", "s", "x"]
  | 'x' => some ["z", "s", "d", "c"]
  | 'c' => some ["x", "d", "f", "v"]
  | 'v' => some ["c", "f", "g", "b", "u"]
  | 'b' => some ["v", "g", "h", "n"]
  | 'n' => some ["b", "h", "j", "m"]
  | 'm' => some ["n", "j", "k", "rn"]
  | '.' => some ["-", "_", ""]
  | _ => none

/-- `repeated_characters`: for each adjacent equal pair, delete one
occurrence and test the result. -/
def repeated_characters (ctx : Ctx) (package_name : Name)
    (return_all : Bool := true) : List Name :=
  let tgts := package_name.enum.filterMap fun ic =>
    match package_name.drop (ic.1 + 1) with
    | [] => none
    | c2 :: _ =>
      if c2 = ic.2 then
        let s := package_name.take ic.1 ++ package_name.drop (ic.1 + 1)
        if admissible ctx package_name s then some s else none
      else none
  collapseTargets ctx return_all tgts

/-- `omitted_chars`: skipped below length 4; otherwise insert every
allowed character at every position and test the result. -/
def omitted_chars (ctx : Ctx) (package_name : Name)
    (return_all : Bool := true) : List Name :=
  if package_name.length < 4 then []
  else
    let tgts := (List.range (package_name.length + 1)).flatMap fun i =>
      ALLOWED_CHARACTERS.filterMap fun c =>
        let s := package_name.take i ++ c :: package_name.drop i
        if admissible ctx package_name s then some s else none
    collapseTargets ctx return_all tgts

/-- `swapped_characters`: swap each adjacent pair and test the result. -/
def swapped_characters (ctx : Ctx) (package_name : Name)
    (return_all : Bool := true) : List Name :=
  let tgts := (List.range (package_name.length - 1)).filterMap fun i =>
    let s := (package_name.set i (package_name.getD (i + 1) 'a')).set (i + 1)
      (package_name.getD i 'a')
    if admissible ctx package_name s then some s else none
  collapseTargets ctx return_all tgts

/-- `swapped_words`: no delimiter means no targets; split into the
non-empty tokens between delimiters, give up above 8 tokens, otherwise
test every permutation joined by every delimiter. -/
def swapped_words (ctx : Ctx) (package_name : Name)
    (return_all : Bool := true) : List Name :=
  if !package_name.any isDelim then []
  else
    let tokens := (package_name.splitOnP isDelim).filter (fun t => !t.isEmpty)
    if tokens.length > 8 then []
    else
      let tgts := tokens.permutations.flatMap fun p =>
        DELIMITERS.filterMap fun d =>
          let s := List.intercalate d p
          if admissible ctx package_name s then some s else none
      collapseTargets ctx return_all tgts

/-- `common_typos`: replace each character by each of its table entries
(an entry may be empty or two characters) and test the result. -/
def common_typos (ctx : Ctx) (package_name : Name)
    (return_all : Bool := true) : List Name :=
  let tgts := package_name.enum.flatMap fun ic =>
    match TYPOS ic.2 with
    | none => []
    | some ts => ts.filterMap fun t =>
      let s := package_name.take ic.1 ++ t.toList ++
        package_name.drop (ic.1 + 1)
      if admissible ctx package_name s then some s else none
  collapseTargets ctx return_all tgts

/-- `bitflips(package_name)`: look the candidate up in the prebuilt
bitflip index and return the recorded popular names, with no further
admissibility checks. -/
def bitflips (ctx : Ctx) (package_name : Name) : List Name :=
  match ctx.popular_bitflips.lookup package_name with
  | some l => l
  | none => []

/-- `allowlisted(package_name)`: exact metadata signatures of known
benign research typosquatters.  `set(c['authors']) == {'x'}` is a
non-empty author list whose entries all equal `x`. -/
def allowlisted (ctx : Ctx) (package_name : Name) : Bool :=
  let c := ctx.crates package_name
  (!c.authors.isEmpty && c.authors.all (· == "blallo") &&
    c.homepage == some "https://xkcd.com/386" &&
    c.documentation == some "https://crates.io/policies" &&
    c.repository == some "https://github.com/blallo/xkcd-386") ||
  (!c.authors.isEmpty && c.authors.all (· == "skerkour") &&
    c.repository == some "https://github.com/skerkour/black-hat-rust")

/-- `get_typosquatting_targets(package_name, nlp)`: skip popular and
allowlisted candidates, take the union of the seven mutator outputs,
deduplicate (`list(set(...))`), and run the similarity filter. -/
def get_typosquatting_targets (ctx : Ctx) (nlp : Nlp) (package_name : Name) :
    Except String (List (Name × ℚ)) :=
  if package_name ∈ ctx.popular then .ok []
  else if allowlisted ctx package_name then .ok []
  else
    let raw :=
      repeated_characters ctx package_name ++
      omitted_chars ctx package_name ++
      swapped_characters ctx package_name ++
      swapped_words ctx package_name ++
      common_typos ctx package_name ++
      version_numbers ctx package_name ++
      bitflips ctx package_name
    filter_targets ctx nlp package_name raw.dedup

/-!
## The bitflip index

The `blip` library is an external collaborator; its enumeration is
modelled at the byte level for ASCII names (crate names range over
`[A-Za-z0-9_-]`, so their UTF-8 encoding is one byte per character).
-/

/-- Modelled from the spec: the byte encoding consumed by the external
`blip` library; for ASCII names this is the UTF-8 encoding. -/
def encodeAscii (n : Name) : List Nat :=
  n.map Char.toNat

/-- Flip bit `j` of byte `b`. -/
def flipByte (b j : Nat) : Nat :=
  b ^^^ (1 <<< j)

/-- Modelled from the spec: `blip.get_blips` — every byte string obtained
by flipping exactly one bit of the input. -/
def byteFlips (bs : List Nat) : List (List Nat) :=
  (List.range bs.length).flatMap fun i =>
    (List.range 8).map fun j => bs.set i (flipByte (bs.getD i 0) j)

/-- Modelled from the spec: `blip.get_string_blips` — decode a mutated
byte string back to text; non-ASCII byte strings never survive the
`CRATE_NAME_REGEX` filter and are dropped here. -/
def decodeAscii (bs : List Nat) : Option Name :=
  if bs.all (· < 128) then some (bs.map Char.ofNat) else none

/-- `blips(package_name)`: all single-bitflip variants that pass the
`CRATE_NAME_REGEX.search` filter (which, through Python's `$`, also
accepts a run of allowed characters with one trailing newline). -/
def blips (p : Name) : List Name :=
  ((byteFlips (encodeAscii p)).filterMap decodeAscii).filter crateNameSearch

/-- `setdefault(bf, []).append(crate_name)` on the association-list
embedding of the index dict. -/
def indexAdd (idx : List (Name × List Name)) (bf p : Name) :
    List (Name × List Name) :=
  match idx with
  | [] => [(bf, [p])]
  | (k, l) :: rest =>
    if k = bf then (k, l ++ [p]) :: rest
    else (k, l) :: indexAdd rest bf p

/-- `generate_bitflips()`: invert `blips` over the popular set into
`mutant → list of generating popular names`. -/
def generate_bitflips (popular : List Name) : List (Name × List Name) :=
  popular.foldl (fun idx p => (blips p).foldl (fun idx bf => indexAdd idx bf p) idx) []

/-!
## The detector driver (`main` loop)
-/

/-- One emitted warning line: candidate name, its download count, and the
target-to-score map.  The downloaded artifact path is an external I/O
effect and is not modelled. -/
structure Alert where
  name : Name
  downloads : Nat
  targets : List (Name × ℚ)
deriving DecidableEq

/-- Python string `<` on names: lexicographic comparison by code point. -/
def nameLt : Name → Name → Bool
  | _, [] => false
  | [], _ :: _ => true
  | x :: xs, y :: ys =>
    if x.toNat < y.toNat then true
    else if y.toNat < x.toNat then false
    else nameLt xs ys

/-- Python string `<=` on names. -/
def nameLe : Name → Name → Bool
  | [], _ => true
  | _ :: _, [] => false
  | x :: xs, y :: ys =>
    if x.toNat < y.toNat then true
    else if y.toNat < x.toNat then false
    else nameLe xs ys

/-- Insert a name into an already-sorted list. -/
def insertName (x : Name) : List Name → List Name
  | [] => [x]
  | y :: ys => if nameLe x y then x :: y :: ys else y :: insertName x ys

/-- `sorted(crates)`: the crate names in ascending lexicographic order.
Python's stable sort is modelled extensionally by insertion sort; on the
duplicate-free key list the ascending order is unique. -/
def sortNames (l : List Name) : List Name :=
  l.foldr insertName []

/-- The per-candidate body of the `main` loop: collect an alert for each
candidate whose filtered target map is non-empty; a similarity-filter
error aborts the run. -/
def detectLoop (ctx : Ctx) (nlp : Nlp) : List Name → Except String (List Alert)
  | [] => .ok []
  | n :: ns =>
    match get_typosquatting_targets ctx nlp n with
    | .error e => .error e
    | .ok ts =>
      match detectLoop ctx nlp ns with
      | .error e => .error e
      | .ok rest =>
        .ok (if ts.isEmpty then rest
          else { name := n, downloads := (ctx.crates n).downloads,
                 targets := ts } :: rest)

/-- `main`: process every crate name in sorted order and stream the
alerts. -/
def mainAlerts (ctx : Ctx) (nlp : Nlp) : Except String (List Alert) :=
  detectLoop ctx nlp (sortNames ctx.crateNames)

/-!
## Concrete example contexts

Small corpora used to evaluate the pipeline on closed inputs.
-/

/-- The default similarity threshold `0.97` as an explicit rational in
lowest terms (written with an explicit numerator and denominator so that
it evaluates by kernel reduction). -/
def simThreshold : ℚ := ⟨97, 100, by decide, by decide⟩

/-- A metadata row with only the fields the examples populate. -/
def mkCrate (desc : Option String) (auth : List String) (dl : Nat) : Crate :=
  { description := desc, authors := auth, homepage := none, repository := none,
    documentation := none, downloads := dl }

/-- Popular crate `react` and candidate `reacu` — a genuine single
bitflip of `react` (`t = 0x74`, bit 0 flipped gives `u = 0x75`) — both
owned by author `A`, with no descriptions. -/
def ctxBitflip : Ctx :=
  { crates := fun n => if n = "react".toList then mkCrate none ["A"] 1000
      else mkCrate none ["A"] 5,
    crateNames := ["react".toList, "reacu".toList],
    popular := ["react".toList],
    popular_bitflips := [("reacu".toList, ["react".toList])],
    similarity_threshold := simThreshold,
    levenshtein_threshold := 10 }

/-- Popular crates `t` (description `y`, owner `B`) and `u` (no
description, owner `B`), candidate `c` (description `x`, owner `A`). -/
def ctxSem : Ctx :=
  { crates := fun n =>
      if n = "t".toList then mkCrate (some "y") ["B"] 50
      else if n = "u".toList then mkCrate none ["B"] 7
      else mkCrate (some "x") ["A"] 5,
    crateNames := ["t".toList, "u".toList, "c".toList],
    popular := ["t".toList, "u".toList],
    popular_bitflips := [],
    similarity_threshold := simThreshold,
    levenshtein_threshold := 10 }

/-- An embedding service with full coverage that scores every pair 1. -/
def nlpAll : Nlp :=
  { hasVector := fun _ => true, similarity := fun _ _ => 1,
    lev := fun _ _ => 0 }

/-- An embedding service with full coverage that scores every pair at
exactly the default similarity threshold. -/
def nlpBoundary : Nlp :=
  { hasVector := fun _ => true, similarity := fun _ _ => simThreshold,
    lev := fun _ _ => 0 }

/-!
## Helper lemmas
-/

theorem collapseTargets_true (ctx : Ctx) (tgts : List Name) :
    collapseTargets ctx true tgts = tgts := by
  simp [collapseTargets]

theorem admissible_iff {ctx : Ctx} {c s : Name} :
    admissible ctx c s = true ↔
      s ∈ ctx.popular ∧ same_author ctx c s = false ∧ s ≠ c := by
  simp [admissible, Bool.and_eq_true, decide_eq_true_iff, and_assoc]

/-- Generic invariant preservation through `List.foldl`. -/
theorem foldl_inv {α β : Type _} {P : β → Prop} (f : β → α → β) :
    ∀ (l : List α) (b : β), P b → (∀ b a, a ∈ l → P b → P (f b a)) →
      P (l.foldl f b)
  | [], _, hb, _ => hb
  | a :: l, b, hb, hs =>
    foldl_inv f l (f b a) (hs b a (List.mem_cons_self a l) hb)
      (fun b' a' ha' => hs b' a' (List.mem_cons_of_mem a ha'))

/-!
### Facts about the version-number regular expression
-/

theorem isDelim_not_digit {d : Char} (h : isDelim d = true) :
    d.isDigit = false := by
  rcases Bool.or_eq_true .. |>.mp h with h' | h' <;>
    · rw [decide_eq_true_iff.mp h']; decide

theorem digit_not_delim {x : Char} (h : x.isDigit = true) :
    isDelim x = false := by
  by_contra h'
  rw [isDelim_not_digit (Bool.of_not_eq_false h')] at h
  simp at h

theorem digitsNonEmpty_eq_false_of_mem {l : List Char} {x : Char}
    (hx : x ∈ l) (hd : x.isDigit = false) : digitsNonEmpty l = false := by
  unfold digitsNonEmpty
  rw [Bool.and_eq_false_iff]
  right
  rw [← Bool.not_eq_true, List.all_eq_true]
  intro h
  rw [h x hx] at hd
  simp at hd

theorem vnTail_cons_false {x : Char} {rest : List Char} (w : Char)
    (hw : w ∈ rest) (hd : w.isDigit = false) : vnTail (x :: rest) = false := by
  simp only [vnTail]
  rw [digitsNonEmpty_eq_false_of_mem hw hd,
    digitsNonEmpty_eq_false_of_mem (List.mem_cons_of_mem x hw) hd]
  simp

theorem digitsNonEmpty_of_all {l : List Char} (h1 : l ≠ [])
    (h2 : l.all (·.isDigit) = true) : digitsNonEmpty l = true := by
  cases l with
  | nil => exact absurd rfl h1
  | cons x xs => simp only [digitsNonEmpty, h2, List.isEmpty_cons,
      Bool.not_false, Bool.and_true]

/-- The lazy group of `VERSION_NUMBER_REGEX` when the trailing digit run
is preceded by a delimiter: `p ++ d :: ds` yields group `p`. -/
theorem vnMatch_delim (p : Name) (d : Char) (ds : Name)
    (hd : isDelim d = true) (h1 : ds ≠ []) (h2 : ds.all (·.isDigit) = true) :
    vnMatch (p ++ d :: ds) = some p := by
  induction p with
  | nil =>
    rw [List.nil_append]
    have hvt : vnTail (d :: ds) = true := by
      simp only [vnTail, hd, digitsNonEmpty_of_all h1 h2, Bool.true_and,
        Bool.true_or]
    simp only [vnMatch, hvt, if_true]
  | cons x p ih =>
    have hmem : d ∈ p ++ d :: ds :=
      List.mem_append_right p (List.mem_cons_self d ds)
    rw [List.cons_append]
    simp only [vnMatch, vnTail_cons_false d hmem (isDelim_not_digit hd),
      Bool.false_eq_true, if_false, ih]
    rfl

/-- The lazy group when the trailing digit run is not preceded by a
delimiter: `p ++ x :: ds` with `x` neither digit nor delimiter yields
group `p ++ [x]`. -/
theorem vnMatch_no_delim (p : Name) (x : Char) (ds : Name)
    (hx : x.isDigit = false) (hxd : isDelim x = false) (h1 : ds ≠ [])
    (h2 : ds.all (·.isDigit) = true) :
    vnMatch (p ++ x :: ds) = some (p ++ [x]) := by
  induction p with
  | nil =>
    rw [List.nil_append]
    have hvt : vnTail (x :: ds) = false := by
      simp only [vnTail, hxd,
        digitsNonEmpty_eq_false_of_mem (List.mem_cons_self x ds) hx,
        Bool.false_and, Bool.or_false]
    cases ds with
    | nil => exact absurd rfl h1
    | cons e es =>
      have hvt2 : vnTail (e :: es) = true := by
        simp only [vnTail, digitsNonEmpty_of_all (List.cons_ne_nil e es) h2,
          Bool.or_true]
      simp only [vnMatch, hvt, Bool.false_eq_true, if_false, hvt2, if_true,
        Option.map_some']
      rfl
  | cons y p ih =>
    have hmem : x ∈ p ++ x :: ds :=
      List.mem_append_right p (List.mem_cons_self x ds)
    rw [List.cons_append]
    simp only [vnMatch, vnTail_cons_false x hmem hx, Bool.false_eq_true,
      if_false, ih]
    rfl

theorem endsInDigit_cons {x : Char} {l : List Char} (h : l ≠ []) :
    endsInDigit (x :: l) = endsInDigit l := by
  cases l with
  | nil => exact absurd rfl h
  | cons y ys => unfold endsInDigit; rw [List.getLast?_cons_cons]

theorem endsInDigit_of_all {l : List Char} (h1 : l ≠ [])
    (h2 : l.all (·.isDigit) = true) : endsInDigit l = true := by
  induction l with
  | nil => exact absurd rfl h1
  | cons x l ih =>
    cases l with
    | nil =>
      unfold endsInDigit
      simpa using List.all_eq_true.mp h2 x (List.mem_cons_self x [])
    | cons y ys =>
      rw [endsInDigit_cons (List.cons_ne_nil y ys)]
      exact ih (List.cons_ne_nil y ys)
        (List.all_eq_true.mpr fun z hz =>
          List.all_eq_true.mp h2 z (List.mem_cons_of_mem x hz))

theorem endsInDigit_of_vnTail {l : List Char} (h : vnTail l = true) :
    endsInDigit l = true := by
  cases l with
  | nil => simp [vnTail] at h
  | cons x cs =>
    simp only [vnTail] at h
    rcases Bool.or_eq_true .. |>.mp h with h' | h'
    · rcases Bool.and_eq_true .. |>.mp h' with ⟨_, hds⟩
      unfold digitsNonEmpty at hds
      rcases Bool.and_eq_true .. |>.mp hds with ⟨hne, hall⟩
      have hcs : cs ≠ [] := by
        intro hc; rw [hc] at hne; simp at hne
      rw [endsInDigit_cons hcs]
      exact endsInDigit_of_all hcs hall
    · unfold digitsNonEmpty at h'
      rcases Bool.and_eq_true .. |>.mp h' with ⟨_, hall⟩
      exact endsInDigit_of_all (List.cons_ne_nil x cs) hall

theorem endsInDigit_of_vnMatch : ∀ (c : Name) (g : List Char),
    vnMatch c = some g → endsInDigit c = true := by
  intro c
  induction c with
  | nil => intro g h; simp [vnMatch] at h
  | cons x cs ih =>
    intro g h
    simp only [vnMatch] at h
    by_cases hv : vnTail (x :: cs) = true
    · exact endsInDigit_of_vnTail hv
    · rw [if_neg hv] at h
      rcases Option.map_eq_some'.mp h with ⟨g', hg', _⟩
      have hcs := ih g' hg'
      have hne : cs ≠ [] := by
        intro hc
        rw [hc] at hcs
        simp [endsInDigit] at hcs
      rw [endsInDigit_cons hne]
      exact hcs

/-!
### Facts about the similarity filter
-/

theorem semanticScan_cons_blank {ctx : Ctx} {nlp : Nlp} {refdesc : String}
    {t : Name} {ts : List Name}
    (h : isEmptyOrWS (ctx.crates t).description = true) :
    semanticScan ctx nlp refdesc (t :: ts) = semanticScan ctx nlp refdesc ts := by
  simp [semanticScan, h]

theorem semanticScan_cons_novec {ctx : Ctx} {nlp : Nlp} {refdesc : String}
    {t : Name} {ts : List Name}
    (hb : isEmptyOrWS (ctx.crates t).description = false)
    (hv : nlp.hasVector (((ctx.crates t).description).getD "") = false) :
    semanticScan ctx nlp refdesc (t :: ts) =
      .error ("No vector_norm for potential target " ++ String.mk t) := by
  simp [semanticScan, hb, hv]

theorem semanticScan_cons_step {ctx : Ctx} {nlp : Nlp} {refdesc : String}
    {t : Name} {ts : List Name}
    (hb : isEmptyOrWS (ctx.crates t).description = false)
    (hv : nlp.hasVector (((ctx.crates t).description).getD "") = true) :
    semanticScan ctx nlp refdesc (t :: ts) =
      match semanticScan ctx nlp refdesc ts with
      | .error e => .error e
      | .ok rest =>
        .ok (if ctx.similarity_threshold <
              nlp.similarity refdesc (((ctx.crates t).description).getD "")
          then (t, nlp.similarity refdesc (((ctx.crates t).description).getD ""))
            :: rest
          else rest) := by
  simp [semanticScan, hb, hv]

/-- Characterization of a successful semantic scan: a pair is in the
output exactly when its name is in the input with a non-blank
description and a similarity strictly above the threshold. -/
theorem semanticScan_ok_mem {ctx : Ctx} {nlp : Nlp} {refdesc : String} :
    ∀ {ts : List Name} {m : List (Name × ℚ)},
      semanticScan ctx nlp refdesc ts = .ok m →
      ∀ t s, ((t, s) ∈ m ↔ t ∈ ts ∧
        isEmptyOrWS (ctx.crates t).description = false ∧
        s = nlp.similarity refdesc (((ctx.crates t).description).getD "") ∧
        ctx.similarity_threshold < s) := by
  intro ts
  induction ts with
  | nil =>
    intro m h t s
    cases h
    simp
  | cons u ts ih =>
    intro m h t s
    by_cases hb : isEmptyOrWS (ctx.crates u).description = true
    · rw [semanticScan_cons_blank hb] at h
      rw [ih h t s]
      constructor
      · rintro ⟨h1, h2, h3, h4⟩
        exact ⟨List.mem_cons_of_mem _ h1, h2, h3, h4⟩
      · rintro ⟨h1, h2, h3, h4⟩
        rcases List.mem_cons.mp h1 with rfl | h1
        · rw [hb] at h2; cases h2
        · exact ⟨h1, h2, h3, h4⟩
    · have hb' : isEmptyOrWS (ctx.crates u).description = false :=
        Bool.of_not_eq_true hb
      by_cases hv : nlp.hasVector (((ctx.crates u).description).getD "") = true
      · rw [semanticScan_cons_step hb' hv] at h
        rcases hrec : semanticScan ctx nlp refdesc ts with e | rest
        · rw [hrec] at h; cases h
        · rw [hrec] at h
          dsimp only at h
          have hm : m = if ctx.similarity_threshold <
                nlp.similarity refdesc (((ctx.crates u).description).getD "")
              then (u, nlp.similarity refdesc
                (((ctx.crates u).description).getD "")) :: rest
              else rest := by
            cases h; rfl
          subst hm
          by_cases hsim : ctx.similarity_threshold <
              nlp.similarity refdesc (((ctx.crates u).description).getD "")
          · rw [if_pos hsim]
            constructor
            · intro hmem
              rcases List.mem_cons.mp hmem with heq | hmem'
              · rw [Prod.mk.injEq] at heq
                obtain ⟨rfl, rfl⟩ := heq
                exact ⟨List.mem_cons_self _ _, hb', rfl, hsim⟩
              · obtain ⟨h1, h2, h3, h4⟩ := (ih hrec t s).mp hmem'
                exact ⟨List.mem_cons_of_mem _ h1, h2, h3, h4⟩
            · rintro ⟨h1, h2, h3, h4⟩
              rcases List.mem_cons.mp h1 with rfl | h1
              · subst h3
                exact List.mem_cons_self _ _
              · exact List.mem_cons_of_mem _ ((ih hrec t s).mpr ⟨h1, h2, h3, h4⟩)
          · rw [if_neg hsim]
            rw [ih hrec t s]
            constructor
            · rintro ⟨h1, h2, h3, h4⟩
              exact ⟨List.mem_cons_of_mem _ h1, h2, h3, h4⟩
            · rintro ⟨h1, h2, h3, h4⟩
              rcases List.mem_cons.mp h1 with rfl | h1
              · subst h3
                exact absurd h4 hsim
              · exact ⟨h1, h2, h3, h4⟩
      · have hv' : nlp.hasVector (((ctx.crates u).description).getD "") = false :=
          Bool.of_not_eq_true hv
        rw [semanticScan_cons_novec hb' hv'] at h
        cases h

/-- A semantic scan fails exactly when some input target has a non-blank
description whose embedding has zero norm. -/
theorem semanticScan_error_iff {ctx : Ctx} {nlp : Nlp} {refdesc : String} :
    ∀ {ts : List Name},
      (∃ e, semanticScan ctx nlp refdesc ts = .error e) ↔
      ∃ t ∈ ts, isEmptyOrWS (ctx.crates t).description = false ∧
        nlp.hasVector (((ctx.crates t).description).getD "") = false := by
  intro ts
  induction ts with
  | nil =>
    constructor
    · rintro ⟨e, h⟩; cases h
    · rintro ⟨t, ht, _⟩; cases ht
  | cons u ts ih =>
    by_cases hb : isEmptyOrWS (ctx.crates u).description = true
    · rw [semanticScan_cons_blank hb]
      rw [ih]
      constructor
      · rintro ⟨t, ht, h2, h3⟩
        exact ⟨t, List.mem_cons_of_mem _ ht, h2, h3⟩
      · rintro ⟨t, ht, h2, h3⟩
        rcases List.mem_cons.mp ht with rfl | ht
        · rw [hb] at h2; cases h2
        · exact ⟨t, ht, h2, h3⟩
    · have hb' : isEmptyOrWS (ctx.crates u).description = false :=
        Bool.of_not_eq_true hb
      by_cases hv : nlp.hasVector (((ctx.crates u).description).getD "") = true
      · rw [semanticScan_cons_step hb' hv]
        rcases hrec : semanticScan ctx nlp refdesc ts with e | rest
        · constructor
          · intro _
            obtain ⟨t, ht, h2, h3⟩ := ih.mp ⟨e, hrec⟩
            exact ⟨t, List.mem_cons_of_mem _ ht, h2, h3⟩
          · intro _
            exact ⟨e, rfl⟩
        · constructor
          · rintro ⟨e, h⟩
            dsimp only at h
            cases h
          · rintro ⟨t, ht, h2, h3⟩
            rcases List.mem_cons.mp ht with rfl | ht
            · rw [hv] at h3; cases h3
            · obtain ⟨e, he⟩ := ih.mpr ⟨t, ht, h2, h3⟩
              rw [he] at hrec; cases hrec
      · have hv' : nlp.hasVector (((ctx.crates u).description).getD "") = false :=
          Bool.of_not_eq_true hv
        rw [semanticScan_cons_novec hb' hv']
        constructor
        · intro _
          exact ⟨u, List.mem_cons_self u ts, hb', hv'⟩
        · intro _
          exact ⟨_, rfl⟩

theorem filter_targets_blank {ctx : Ctx} {nlp : Nlp} {c : Name}
    (ts : List Name) (h : isEmptyOrWS (ctx.crates c).description = true) :
    filter_targets ctx nlp c ts =
      .ok ((ts.filter (fun t => isEmptyOrWS (ctx.crates t).description)).map
        (fun t => (t, (100 : ℚ)))) := by
  simp [filter_targets, h]

theorem filter_targets_lev {ctx : Ctx} {nlp : Nlp} {c : Name}
    (ts : List Name) (h1 : isEmptyOrWS (ctx.crates c).description = false)
    (h2 : nlp.hasVector (((ctx.crates c).description).getD "") = false) :
    filter_targets ctx nlp c ts =
      .ok (ts.filterMap fun t =>
        if nlp.lev (((ctx.crates c).description).getD "")
            (ctx.crates t).description < ctx.levenshtein_threshold
        then some (t, (nlp.lev (((ctx.crates c).description).getD "")
            (ctx.crates t).description : ℚ))
        else none) := by
  simp [filter_targets, h1, h2]

theorem filter_targets_sem {ctx : Ctx} {nlp : Nlp} {c : Name}
    (ts : List Name) (h1 : isEmptyOrWS (ctx.crates c).description = false)
    (h2 : nlp.hasVector (((ctx.crates c).description).getD "") = true) :
    filter_targets ctx nlp c ts =
      semanticScan ctx nlp (((ctx.crates c).description).getD "") ts := by
  simp [filter_targets, h1, h2]

/-- Every name in a successful filter output occurs among the raw
targets handed to the filter. -/
theorem filter_targets_sub {ctx : Ctx} {nlp : Nlp} {c : Name}
    {ts : List Name} {m : List (Name × ℚ)}
    (h : filter_targets ctx nlp c ts = .ok m) :
    ∀ t s, (t, s) ∈ m → t ∈ ts := by
  intro t s hm
  by_cases hb : isEmptyOrWS (ctx.crates c).description = true
  · rw [filter_targets_blank ts hb] at h
    cases h
    obtain ⟨u, hu, heq⟩ := List.mem_map.mp hm
    rw [Prod.mk.injEq] at heq
    obtain ⟨rfl, _⟩ := heq
    exact List.mem_of_mem_filter hu
  · have hb' : isEmptyOrWS (ctx.crates c).description = false :=
      Bool.of_not_eq_true hb
    by_cases hv : nlp.hasVector (((ctx.crates c).description).getD "") = true
    · rw [filter_targets_sem ts hb' hv] at h
      exact ((semanticScan_ok_mem h t s).mp hm).1
    · have hv' : nlp.hasVector (((ctx.crates c).description).getD "") = false :=
        Bool.of_not_eq_true hv
      rw [filter_targets_lev ts hb' hv'] at h
      cases h
      obtain ⟨u, hu, heq⟩ := List.mem_filterMap.mp hm
      by_cases hd : nlp.lev (((ctx.crates c).description).getD "")
          (ctx.crates u).description < ctx.levenshtein_threshold
      · rw [if_pos hd, Option.some.injEq, Prod.mk.injEq] at heq
        obtain ⟨⟨rfl, _⟩, _⟩ := heq
        exact hu
      · rw [if_neg hd] at heq
        cases heq

/-!
### Admissibility of mutator outputs
-/

theorem admissible_of_guard {ctx : Ctx} {pn s' s : Name}
    (h : (if admissible ctx pn s' then some s' else none) = some s) :
    admissible ctx pn s = true := by
  by_cases ha : admissible ctx pn s' = true
  · rw [if_pos ha] at h
    cases h
    exact ha
  · rw [if_neg (by simpa using ha)] at h
    cases h

theorem mem_repeated_characters {ctx : Ctx} {c s : Name}
    (h : s ∈ repeated_characters ctx c true) : admissible ctx c s = true := by
  simp only [repeated_characters, collapseTargets_true] at h
  obtain ⟨ic, _, hf⟩ := List.mem_filterMap.mp h
  rcases hdrop : c.drop (ic.1 + 1) with _ | ⟨c2, rest⟩ <;> rw [hdrop] at hf
  · cases hf
  · dsimp only at hf
    by_cases he : c2 = ic.2
    · rw [if_pos he] at hf
      exact admissible_of_guard hf
    · rw [if_neg he] at hf
      cases hf

theorem mem_omitted_chars {ctx : Ctx} {c s : Name}
    (h : s ∈ omitted_chars ctx c true) : admissible ctx c s = true := by
  simp only [omitted_chars, collapseTargets_true] at h
  by_cases hlen : c.length < 4
  · rw [if_pos hlen] at h
    cases h
  · rw [if_neg hlen] at h
    obtain ⟨i, _, hi⟩ := List.mem_flatMap.mp h
    obtain ⟨ch, _, hf⟩ := List.mem_filterMap.mp hi
    exact admissible_of_guard hf

theorem mem_swapped_characters {ctx : Ctx} {c s : Name}
    (h : s ∈ swapped_characters ctx c true) : admissible ctx c s = true := by
  simp only [swapped_characters, collapseTargets_true] at h
  obtain ⟨i, _, hf⟩ := List.mem_filterMap.mp h
  exact admissible_of_guard hf

theorem mem_swapped_words {ctx : Ctx} {c s : Name}
    (h : s ∈ swapped_words ctx c true) : admissible ctx c s = true := by
  simp only [swapped_words, collapseTargets_true] at h
  by_cases h1 : (!c.any isDelim) = true
  · rw [if_pos h1] at h
    cases h
  · rw [if_neg (by simpa using h1)] at h
    by_cases h2 : ((c.splitOnP isDelim).filter (fun t => !t.isEmpty)).length > 8
    · rw [if_pos h2] at h
      cases h
    · rw [if_neg h2] at h
      obtain ⟨p, _, hp⟩ := List.mem_flatMap.mp h
      obtain ⟨d, _, hf⟩ := List.mem_filterMap.mp hp
      exact admissible_of_guard hf

theorem mem_common_typos {ctx : Ctx} {c s : Name}
    (h : s ∈ common_typos ctx c true) : admissible ctx c s = true := by
  simp only [common_typos, collapseTargets_true] at h
  obtain ⟨ic, _, hi⟩ := List.mem_flatMap.mp h
  rcases hty : TYPOS ic.2 with _ | ts <;> rw [hty] at hi
  · cases hi
  · dsimp only at hi
    obtain ⟨tr, _, hf⟩ := List.mem_filterMap.mp hi
    exact admissible_of_guard hf

theorem mem_version_numbers {ctx : Ctx} {c s : Name}
    (h : s ∈ version_numbers ctx c) : admissible ctx c s = true := by
  unfold version_numbers at h
  rcases hv : vnMatch c with _ | g <;> rw [hv] at h
  · cases h
  · dsimp only at h
    by_cases ha : admissible ctx c g = true
    · rw [if_pos ha] at h
      obtain rfl := List.mem_singleton.mp h
      exact ha
    · rw [if_neg (by simpa using ha)] at h
      cases h

theorem mem_bitflips_lookup {ctx : Ctx} {c s : Name}
    (h : s ∈ bitflips ctx c) :
    ∃ l, ctx.popular_bitflips.lookup c = some l ∧ s ∈ l := by
  unfold bitflips at h
  rcases hl : ctx.popular_bitflips.lookup c with _ | l <;> rw [hl] at h
  · cases h
  · exact ⟨l, rfl, h⟩

/-!
### Facts about name ordering, sorting and the driver loop
-/

theorem nameLe_refl : ∀ a : Name, nameLe a a = true
  | [] => rfl
  | x :: xs => by
    simp only [nameLe, Nat.lt_irrefl, if_false]
    exact nameLe_refl xs

theorem nameLe_trans : ∀ a b c : Name, nameLe a b = true → nameLe b c = true →
    nameLe a c = true
  | [], _, _, _, _ => rfl
  | _ :: _, [], _, hab, _ => by simp [nameLe] at hab
  | _ :: _, _ :: _, [], _, hbc => by simp [nameLe] at hbc
  | x :: xs, y :: ys, z :: zs, hab, hbc => by
    simp only [nameLe] at hab hbc ⊢
    rcases Nat.lt_trichotomy x.toNat y.toNat with hxy | hxy | hxy
    · rcases Nat.lt_trichotomy y.toNat z.toNat with hyz | hyz | hyz
      · rw [if_pos (by omega)]
      · rw [if_pos (by omega)]
      · rw [if_neg (by omega), if_pos (by omega)] at hbc
        cases hbc
    · rcases Nat.lt_trichotomy y.toNat z.toNat with hyz | hyz | hyz
      · rw [if_pos (by omega)]
      · rw [if_neg (by omega : ¬x.toNat < y.toNat),
          if_neg (by omega : ¬y.toNat < x.toNat)] at hab
        rw [if_neg (by omega : ¬y.toNat < z.toNat),
          if_neg (by omega : ¬z.toNat < y.toNat)] at hbc
        rw [if_neg (by omega : ¬x.toNat < z.toNat),
          if_neg (by omega : ¬z.toNat < x.toNat)]
        exact nameLe_trans xs ys zs hab hbc
      · rw [if_neg (by omega), if_pos (by omega)] at hbc
        cases hbc
    · rw [if_neg (by omega), if_pos (by omega)] at hab
      cases hab

theorem nameLe_total : ∀ a b : Name, nameLe a b = true ∨ nameLe b a = true
  | [], _ => Or.inl rfl
  | _ :: _, [] => Or.inr rfl
  | x :: xs, y :: ys => by
    simp only [nameLe]
    rcases Nat.lt_trichotomy x.toNat y.toNat with h | h | h
    · left; rw [if_pos h]
    · rw [if_neg (by omega), if_neg (by omega), if_neg (by omega),
        if_neg (by omega)]
      exact nameLe_total xs ys
    · right; rw [if_pos h]

theorem nameLt_of_le_of_ne : ∀ a b : Name, nameLe a b = true → a ≠ b →
    nameLt a b = true
  | [], [], _, hne => absurd rfl hne
  | [], _ :: _, _, _ => rfl
  | _ :: _, [], hab, _ => by simp [nameLe] at hab
  | x :: xs, y :: ys, hab, hne => by
    simp only [nameLe] at hab
    simp only [nameLt]
    rcases Nat.lt_trichotomy x.toNat y.toNat with h | h | h
    · rw [if_pos h]
    · rw [if_neg (by omega : ¬x.toNat < y.toNat),
        if_neg (by omega : ¬y.toNat < x.toNat)] at hab ⊢
      have hx : x = y := by
        apply Char.eq_of_val_eq
        apply UInt32.toNat.inj
        exact h
      subst hx
      exact nameLt_of_le_of_ne xs ys hab (fun hh => hne (by rw [hh]))
    · rw [if_neg (by omega), if_pos h] at hab
      cases hab

theorem perm_insertName (x : Name) : ∀ l : List Name,
    List.Perm (insertName x l) (x :: l)
  | [] => List.Perm.refl _
  | y :: ys => by
    unfold insertName
    split
    · exact List.Perm.refl _
    · exact ((perm_insertName x ys).cons y).trans (List.Perm.swap x y ys)

theorem pairwise_insertName {x : Name} : ∀ {l : List Name},
    l.Pairwise (fun a b => nameLe a b = true) →
    (insertName x l).Pairwise (fun a b => nameLe a b = true) := by
  intro l
  induction l with
  | nil => intro _; simp [insertName]
  | cons y ys ih =>
    intro hl
    rw [List.pairwise_cons] at hl
    obtain ⟨hy, hys⟩ := hl
    unfold insertName
    by_cases hxy : nameLe x y = true
    · rw [if_pos hxy]
      rw [List.pairwise_cons]
      refine ⟨?_, List.pairwise_cons.mpr ⟨hy, hys⟩⟩
      intro b hb
      rcases List.mem_cons.mp hb with rfl | hb
      · exact hxy
      · exact nameLe_trans x y b hxy (hy b hb)
    · rw [if_neg hxy]
      rw [List.pairwise_cons]
      constructor
      · intro b hb
        rcases List.mem_cons.mp ((perm_insertName x ys).mem_iff.mp hb) with
          rfl | h
        · rcases nameLe_total b y with h | h
          · exact absurd h hxy
          · exact h
        · exact hy b h
      · exact ih hys

theorem pairwise_sortNames (l : List Name) :
    (sortNames l).Pairwise (fun a b => nameLe a b = true) := by
  unfold sortNames
  induction l with
  | nil => simp
  | cons x xs ih => exact pairwise_insertName ih

theorem perm_sortNames : ∀ l : List Name, List.Perm (sortNames l) l := by
  intro l
  unfold sortNames
  induction l with
  | nil => exact List.Perm.refl _
  | cons x xs ih =>
    exact (perm_insertName x _).trans (ih.cons x)

theorem detectLoop_names {ctx : Ctx} {nlp : Nlp} :
    ∀ {l : List Name} {al : List Alert}, detectLoop ctx nlp l = .ok al →
      ∀ a ∈ al, a.name ∈ l := by
  intro l
  induction l with
  | nil =>
    intro al h a ha
    cases h
    cases ha
  | cons n ns ih =>
    intro al h a ha
    unfold detectLoop at h
    rcases h1 : get_typosquatting_targets ctx nlp n with e | ts <;> rw [h1] at h
    · cases h
    · rcases h2 : detectLoop ctx nlp ns with e | rest <;> rw [h2] at h
      · cases h
      · dsimp only at h
        by_cases hts : ts.isEmpty = true
        · rw [if_pos hts] at h
          cases h
          exact List.mem_cons_of_mem n (ih h2 a ha)
        · rw [if_neg hts] at h
          cases h
          rcases List.mem_cons.mp ha with rfl | ha'
          · exact List.mem_cons_self _ _
          · exact List.mem_cons_of_mem n (ih h2 a ha')

theorem detectLoop_pairwise {ctx : Ctx} {nlp : Nlp} :
    ∀ {l : List Name} {al : List Alert},
      l.Pairwise (fun a b => nameLt a b = true) →
      detectLoop ctx nlp l = .ok al →
      al.Pairwise (fun a b => nameLt a.name b.name = true) := by
  intro l
  induction l with
  | nil =>
    intro al _ h
    cases h
    exact List.Pairwise.nil
  | cons n ns ih =>
    intro al hp h
    rw [List.pairwise_cons] at hp
    obtain ⟨hn, hns⟩ := hp
    unfold detectLoop at h
    rcases h1 : get_typosquatting_targets ctx nlp n with e | ts <;> rw [h1] at h
    · cases h
    · rcases h2 : detectLoop ctx nlp ns with e | rest <;> rw [h2] at h
      · cases h
      · dsimp only at h
        by_cases hts : ts.isEmpty = true
        · rw [if_pos hts] at h
          cases h
          exact ih hns h2
        · rw [if_neg hts] at h
          cases h
          rw [List.pairwise_cons]
          exact ⟨fun b hb => hn b.name (detectLoop_names h2 b hb), ih hns h2⟩

/-!
### Facts about characters, bytes and the bitflip index
-/

theorem char_toNat_ofNat {n : Nat} (h : n < 128) : (Char.ofNat n).toNat = n := by
  have hv : n.isValidChar := Or.inl (by omega)
  rw [Char.ofNat, dif_pos hv]
  rfl

theorem flipByte_ne (b j : Nat) : flipByte b j ≠ b := by
  unfold flipByte
  intro h
  have h2 : b ^^^ (b ^^^ (1 <<< j)) = b ^^^ b := congrArg (b ^^^ ·) h
  rw [← Nat.xor_assoc, Nat.xor_self, Nat.zero_xor] at h2
  rw [Nat.one_shiftLeft] at h2
  have := Nat.two_pow_pos j
  omega

theorem mem_blips_search {p m : Name} (h : m ∈ blips p) :
    crateNameSearch m = true :=
  (List.mem_filter.mp h).2

theorem mem_blips_ne {p m : Name} (h : m ∈ blips p) : m ≠ p := by
  unfold blips at h
  obtain ⟨hmem, _⟩ := List.mem_filter.mp h
  obtain ⟨bs', hbs', hdec⟩ := List.mem_filterMap.mp hmem
  unfold decodeAscii at hdec
  split at hdec
  case isFalse => cases hdec
  case isTrue hall =>
    have hm : m = bs'.map Char.ofNat := by cases hdec; rfl
    unfold byteFlips at hbs'
    obtain ⟨i, hi, hbs2⟩ := List.mem_flatMap.mp hbs'
    obtain ⟨j, _, hset⟩ := List.mem_map.mp hbs2
    rw [List.mem_range] at hi
    intro heq
    have henc : encodeAscii p = bs' := by
      rw [← heq, hm]
      unfold encodeAscii
      rw [List.map_map]
      have hcg : bs'.map (Char.toNat ∘ Char.ofNat) = bs'.map id := by
        apply List.map_congr_left
        intro b hb
        have hb128 : b < 128 :=
          of_decide_eq_true (List.all_eq_true.mp hall b hb)
        exact char_toNat_ofNat hb128
      rw [hcg, List.map_id]
    have hgetset :
        ((encodeAscii p).set i
          (flipByte ((encodeAscii p).getD i 0) j))[i]? =
          some (flipByte ((encodeAscii p).getD i 0) j) :=
      List.getElem?_set_self hi
    rw [hset.trans henc.symm] at hgetset
    have hsome : (encodeAscii p)[i]? = some ((encodeAscii p).get ⟨i, hi⟩) :=
      List.getElem?_eq_getElem hi
    have hgd : (encodeAscii p).getD i 0 = (encodeAscii p).get ⟨i, hi⟩ := by
      rw [List.getD_eq_getElem?_getD, hsome]
      rfl
    rw [hsome, hgd] at hgetset
    exact flipByte_ne _ j (Option.some.inj hgetset).symm

/-- `indexAdd` preserves the index invariant: every entry is a non-empty
list of popular names that generate its key. -/
theorem indexAdd_inv {popular : List Name} {bf p : Name}
    (hp : p ∈ popular) (hbf : bf ∈ blips p) :
    ∀ (idx : List (Name × List Name)),
      (∀ k l, (k, l) ∈ idx → l ≠ [] ∧ ∀ q ∈ l, q ∈ popular ∧ k ∈ blips q) →
      ∀ k l, (k, l) ∈ indexAdd idx bf p →
        l ≠ [] ∧ ∀ q ∈ l, q ∈ popular ∧ k ∈ blips q
  | [], _, k, l, hkl => by
    simp only [indexAdd] at hkl
    obtain ⟨rfl, rfl⟩ := Prod.mk.injEq .. |>.mp (List.mem_singleton.mp hkl)
    refine ⟨by simp, fun q hq => ?_⟩
    obtain rfl := List.mem_singleton.mp hq
    exact ⟨hp, hbf⟩
  | (k', l') :: rest, hidx, k, l, hkl => by
    simp only [indexAdd] at hkl
    by_cases hk : k' = bf
    · rw [if_pos hk] at hkl
      rcases List.mem_cons.mp hkl with heq | hmem
      · have hkeq : k = k' := (Prod.mk.injEq .. |>.mp heq).1
        have hleq : l = l' ++ [p] := (Prod.mk.injEq .. |>.mp heq).2
        have h0 := hidx k' l' (List.mem_cons_self _ _)
        refine ⟨by rw [hleq]; simp, fun q hq => ?_⟩
        rw [hleq] at hq
        rcases List.mem_append.mp hq with hq | hq
        · have h1 := h0.2 q hq
          rw [hkeq]
          exact h1
        · obtain rfl := List.mem_singleton.mp hq
          rw [hkeq, hk]
          exact ⟨hp, hbf⟩
      · exact hidx k l (List.mem_cons_of_mem _ hmem)
    · rw [if_neg hk] at hkl
      rcases List.mem_cons.mp hkl with heq | hmem
      · have hkeq : k = k' := (Prod.mk.injEq .. |>.mp heq).1
        have hleq : l = l' := (Prod.mk.injEq .. |>.mp heq).2
        rw [hkeq, hleq]
        exact hidx k' l' (List.mem_cons_self _ _)
      · exact indexAdd_inv hp hbf rest
          (fun k2 l2 hkl2 => hidx k2 l2 (List.mem_cons_of_mem _ hkl2))
          k l hmem

/-- The built bitflip index satisfies the index invariant. -/
theorem generate_bitflips_inv (popular : List Name) :
    ∀ k l, (k, l) ∈ generate_bitflips popular →
      l ≠ [] ∧ ∀ q ∈ l, q ∈ popular ∧ k ∈ blips q := by
  unfold generate_bitflips
  apply foldl_inv
    (P := fun idx => ∀ k l, (k, l) ∈ idx →
      l ≠ [] ∧ ∀ q ∈ l, q ∈ popular ∧ k ∈ blips q)
  · intro k l hkl
    cases hkl
  · intro idx p hp hidx
    apply foldl_inv
      (P := fun idx => ∀ k l, (k, l) ∈ idx →
        l ≠ [] ∧ ∀ q ∈ l, q ∈ popular ∧ k ∈ blips q)
    · exact hidx
    · intro idx' bf hbf hidx'
      exact indexAdd_inv hp hbf idx' hidx'

/-- What does hold of the index: every recorded mutant passes the code's
`search` filter and differs from its generator, and every entry is a
non-empty list of popular names that generate its key.  (The mutants do
not all match `[A-Za-z0-9_-]+` exactly; see `newline_mutant_recorded`.) -/
theorem bitflip_index_sound (popular : List Name) :
    (∀ p : Name, ∀ m ∈ blips p, crateNameSearch m = true ∧ m ≠ p) ∧
    (∀ k l, (k, l) ∈ generate_bitflips popular →
      l ≠ [] ∧ ∀ q ∈ l, q ∈ popular ∧ k ∈ blips q) :=
  ⟨fun _ _ hm => ⟨mem_blips_search hm, mem_blips_ne hm⟩,
   generate_bitflips_inv popular⟩

end Typogard

/-- C10: For every input name, the version-numbers mutator returns at
most one target: the empty list or the singleton stripped prefix. -/
theorem version_numbers_length_le_one (ctx : Typogard.Ctx)
    (pn : Typogard.Name) : (Typogard.version_numbers ctx pn).length ≤ 1 := by
  unfold Typogard.version_numbers
  cases Typogard.vnMatch pn with
  | none => simp
  | some s => dsimp only; split <;> simp

/-- C7: A candidate that is itself in the popular set yields zero
targets from the detection pipeline. -/
theorem popular_candidate_no_targets (ctx : Typogard.Ctx)
    (nlp : Typogard.Nlp) (c : Typogard.Name) (h : c ∈ ctx.popular) :
    Typogard.get_typosquatting_targets ctx nlp c = .ok [] := by
  unfold Typogard.get_typosquatting_targets
  rw [if_pos h]

open Typogard

/-- C7 witness: the popular crate `react` of the example corpus yields
zero targets. -/
theorem popular_candidate_no_targets_witness :
    get_typosquatting_targets ctxBitflip nlpAll "react".toList = .ok [] :=
  popular_candidate_no_targets ctxBitflip nlpAll "react".toList (by decide)

/-- C3: the version-number mutator strips the whole trailing digit run
together with a single optional preceding delimiter: group 1 of the lazy
regex on `p ++ d :: ds` (delimiter `d`, digit run `ds`) is exactly `p`,
and on `p ++ x :: ds` with `x` neither digit nor delimiter it is
`p ++ [x]`; in particular `react-02` is stripped to `react` (not
`react-0`), and a name not ending in a digit produces no targets. -/
theorem version_number_strip_correct :
    (∀ p d ds, isDelim d = true → ds ≠ [] → ds.all (·.isDigit) = true →
      vnMatch (p ++ d :: ds) = some p) ∧
    (∀ p x ds, x.isDigit = false → isDelim x = false → ds ≠ [] →
      ds.all (·.isDigit) = true → vnMatch (p ++ x :: ds) = some (p ++ [x])) ∧
    vnMatch "react-02".toList = some "react".toList ∧
    (∀ ctx c, endsInDigit c = false → version_numbers ctx c = []) := by
  refine ⟨vnMatch_delim, vnMatch_no_delim, by decide, ?_⟩
  intro ctx c h
  unfold version_numbers
  rcases hv : vnMatch c with _ | g
  · rfl
  · rw [endsInDigit_of_vnMatch c g hv] at h
    cases h

/-- C3 witness: the regex facts applied at `react-02`, `reactt2` and a
name with no trailing digits. -/
theorem version_number_strip_correct_witness :
    vnMatch ("react".toList ++ '-' :: "02".toList) = some "react".toList ∧
    vnMatch ("reac".toList ++ 't' :: "2".toList) =
      some ("reac".toList ++ ['t']) ∧
    version_numbers ctxSem "react".toList = [] :=
  ⟨version_number_strip_correct.1 "react".toList '-' "02".toList (by decide)
      (by decide) (by decide),
   version_number_strip_correct.2.1 "reac".toList 't' "2".toList (by decide)
      (by decide) (by decide) (by decide),
   version_number_strip_correct.2.2.2 ctxSem "react".toList (by decide)⟩

/-- C4: when the candidate's description is absent, empty or
whitespace-only, the filter keeps exactly the targets whose description
is also blank, each with sentinel score 100. -/
theorem blank_candidate_filter (ctx : Ctx) (nlp : Nlp) (c : Name)
    (ts : List Name) (m : List (Name × ℚ)) (t : Name) (s : ℚ)
    (h : isEmptyOrWS (ctx.crates c).description = true)
    (hok : filter_targets ctx nlp c ts = .ok m) :
    ((t, s) ∈ m ↔ t ∈ ts ∧ isEmptyOrWS (ctx.crates t).description = true ∧
      s = 100) := by
  rw [filter_targets_blank ts h] at hok
  cases hok
  constructor
  · intro hm
    obtain ⟨u, hu, heq⟩ := List.mem_map.mp hm
    rw [Prod.mk.injEq] at heq
    obtain ⟨rfl, rfl⟩ := heq
    obtain ⟨hu1, hu2⟩ := List.mem_filter.mp hu
    exact ⟨hu1, hu2, rfl⟩
  · rintro ⟨h1, h2, rfl⟩
    exact List.mem_map.mpr ⟨t, List.mem_filter.mpr ⟨h1, h2⟩, rfl⟩

/-- C4 witness: the description-less corpus retains the description-less
target `react` with score 100. -/
theorem blank_candidate_filter_witness :
    (("react".toList, (100 : ℚ)) ∈ [("react".toList, (100 : ℚ))] ↔
      "react".toList ∈ ["react".toList] ∧
      isEmptyOrWS (ctxBitflip.crates "react".toList).description = true ∧
      (100 : ℚ) = 100) :=
  blank_candidate_filter ctxBitflip nlpAll "reacu".toList ["react".toList]
    [("react".toList, (100 : ℚ))] "react".toList 100 rfl rfl

/-- C5: the similarity filter raises its fatal error exactly when the
candidate's description is non-blank and embeds with non-zero norm while
some raw target has a non-blank description embedding to zero norm. -/
theorem filter_error_iff (ctx : Ctx) (nlp : Nlp) (c : Name)
    (ts : List Name) :
    (∃ e, filter_targets ctx nlp c ts = .error e) ↔
    (isEmptyOrWS (ctx.crates c).description = false ∧
     nlp.hasVector (((ctx.crates c).description).getD "") = true ∧
     ∃ t ∈ ts, isEmptyOrWS (ctx.crates t).description = false ∧
       nlp.hasVector (((ctx.crates t).description).getD "") = false) := by
  by_cases hb : isEmptyOrWS (ctx.crates c).description = true
  · rw [filter_targets_blank ts hb]
    constructor
    · rintro ⟨e, he⟩
      cases he
    · rintro ⟨h1, _⟩
      rw [hb] at h1
      cases h1
  · have hb' : isEmptyOrWS (ctx.crates c).description = false :=
      Bool.of_not_eq_true hb
    by_cases hv : nlp.hasVector (((ctx.crates c).description).getD "") = true
    · rw [filter_targets_sem ts hb' hv]
      rw [show (∃ e, semanticScan ctx nlp
            (((ctx.crates c).description).getD "") ts = .error e) ↔ _ from
        semanticScan_error_iff]
      constructor
      · intro hex
        exact ⟨hb', hv, hex⟩
      · rintro ⟨_, _, hex⟩
        exact hex
    · have hv' : nlp.hasVector (((ctx.crates c).description).getD "") = false :=
        Bool.of_not_eq_true hv
      rw [filter_targets_lev ts hb' hv']
      constructor
      · rintro ⟨e, he⟩
        cases he
      · rintro ⟨_, h2, _⟩
        rw [hv'] at h2
        cases h2

/-- C9: in semantic mode a raw target with a blank description is
silently dropped: prepending it leaves the filter's output unchanged
(no error is raised for it) and it never receives a score. -/
theorem semantic_blank_target_skipped (ctx : Ctx) (nlp : Nlp) (c t : Name)
    (ts : List Name) (m : List (Name × ℚ)) (s : ℚ)
    (hdesc : isEmptyOrWS (ctx.crates c).description = false)
    (hvec : nlp.hasVector (((ctx.crates c).description).getD "") = true)
    (hblank : isEmptyOrWS (ctx.crates t).description = true)
    (hok : filter_targets ctx nlp c ts = .ok m) :
    filter_targets ctx nlp c (t :: ts) = .ok m ∧ (t, s) ∉ m := by
  have h1 : filter_targets ctx nlp c (t :: ts) = filter_targets ctx nlp c ts := by
    rw [filter_targets_sem _ hdesc hvec, filter_targets_sem _ hdesc hvec]
    exact semanticScan_cons_blank hblank
  refine ⟨h1.trans hok, fun hm => ?_⟩
  rw [filter_targets_sem ts hdesc hvec] at hok
  obtain ⟨_, h2, _⟩ := (semanticScan_ok_mem hok t s).mp hm
  rw [hblank] at h2
  cases h2

/-- C9 witness: the description-less popular crate `u` is dropped
without an error and without a score. -/
theorem semantic_blank_target_skipped_witness :
    filter_targets ctxSem nlpAll "c".toList ("u".toList :: ["t".toList]) =
      .ok [("t".toList, (1 : ℚ))] ∧
    ("u".toList, (100 : ℚ)) ∉ [("t".toList, (1 : ℚ))] :=
  semantic_blank_target_skipped ctxSem nlpAll "c".toList "u".toList
    ["t".toList] [("t".toList, (1 : ℚ))] 100 rfl rfl rfl rfl

/-- C2 (amended): in semantic mode the filter retains a target exactly
when the cosine similarity is strictly greater than the similarity
threshold, and the retained score is that similarity; a target whose
similarity exactly equals the threshold is dropped. -/
theorem semantic_retain_iff_strict (ctx : Ctx) (nlp : Nlp) (c : Name)
    (ts : List Name) (m : List (Name × ℚ)) (t : Name) (s : ℚ)
    (hdesc : isEmptyOrWS (ctx.crates c).description = false)
    (hvec : nlp.hasVector (((ctx.crates c).description).getD "") = true)
    (hok : filter_targets ctx nlp c ts = .ok m) :
    ((t, s) ∈ m ↔ t ∈ ts ∧ isEmptyOrWS (ctx.crates t).description = false ∧
      s = nlp.similarity (((ctx.crates c).description).getD "")
        (((ctx.crates t).description).getD "") ∧
      ctx.similarity_threshold < s) := by
  rw [filter_targets_sem ts hdesc hvec] at hok
  exact semanticScan_ok_mem hok t s

/-- C2 witness: a target scoring 1 against threshold 0.97 is retained
with score 1. -/
theorem semantic_retain_iff_strict_witness :
    (("t".toList, (1 : ℚ)) ∈ [("t".toList, (1 : ℚ))] ↔
      "t".toList ∈ ["t".toList] ∧
      isEmptyOrWS (ctxSem.crates "t".toList).description = false ∧
      (1 : ℚ) = nlpAll.similarity
        (((ctxSem.crates "c".toList).description).getD "")
        (((ctxSem.crates "t".toList).description).getD "") ∧
      ctxSem.similarity_threshold < 1) :=
  semantic_retain_iff_strict ctxSem nlpAll "c".toList ["t".toList]
    [("t".toList, (1 : ℚ))] "t".toList 1 rfl rfl rfl

/-- C2 counterexample: in semantic mode with similarity exactly equal to
the threshold (0.97), the target is dropped (`sim > threshold` in the
code is strict), while the claim requires it to be retained. -/
theorem threshold_equality_dropped :
    isEmptyOrWS (ctxSem.crates "c".toList).description = false ∧
    nlpBoundary.hasVector
      (((ctxSem.crates "c".toList).description).getD "") = true ∧
    nlpBoundary.similarity
      (((ctxSem.crates "c".toList).description).getD "")
      (((ctxSem.crates "t".toList).description).getD "") =
      ctxSem.similarity_threshold ∧
    filter_targets ctxSem nlpBoundary "c".toList ["t".toList] = .ok [] :=
  ⟨rfl, rfl, rfl, rfl⟩

/-- C1 (amended): every target emitted by the detection pipeline is a
member of the popular set and differs from the candidate; a target
contributed by the six string mutators additionally shares no owner with
the candidate, but a bitflip-index hit is returned without the
shared-owner check. -/
theorem emitted_target_popular_ne_owner (ctx : Ctx) (nlp : Nlp) (c : Name)
    (m : List (Name × ℚ)) (t : Name) (s : ℚ)
    (hbf : ∀ k l, (k, l) ∈ ctx.popular_bitflips →
      ∀ q ∈ l, q ∈ ctx.popular ∧ q ≠ k)
    (hok : get_typosquatting_targets ctx nlp c = .ok m)
    (hm : (t, s) ∈ m) :
    t ∈ ctx.popular ∧ t ≠ c ∧
      (same_author ctx c t = false ∨ t ∈ bitflips ctx c) := by
  unfold get_typosquatting_targets at hok
  by_cases hpop : c ∈ ctx.popular
  · rw [if_pos hpop] at hok
    cases hok
    cases hm
  · rw [if_neg hpop] at hok
    by_cases hal : allowlisted ctx c = true
    · rw [if_pos hal] at hok
      cases hok
      cases hm
    · rw [if_neg (by simpa using hal)] at hok
      have ht := filter_targets_sub hok t s hm
      rw [List.mem_dedup] at ht
      simp only [List.mem_append] at ht
      rcases ht with ((((((h1 | h2) | h3) | h4) | h5) | h6) | h7)
      · have h := admissible_iff.mp (mem_repeated_characters h1)
        exact ⟨h.1, h.2.2, Or.inl h.2.1⟩
      · have h := admissible_iff.mp (mem_omitted_chars h2)
        exact ⟨h.1, h.2.2, Or.inl h.2.1⟩
      · have h := admissible_iff.mp (mem_swapped_characters h3)
        exact ⟨h.1, h.2.2, Or.inl h.2.1⟩
      · have h := admissible_iff.mp (mem_swapped_words h4)
        exact ⟨h.1, h.2.2, Or.inl h.2.1⟩
      · have h := admissible_iff.mp (mem_common_typos h5)
        exact ⟨h.1, h.2.2, Or.inl h.2.1⟩
      · have h := admissible_iff.mp (mem_version_numbers h6)
        exact ⟨h.1, h.2.2, Or.inl h.2.1⟩
      · obtain ⟨l, hl, hsl⟩ := mem_bitflips_lookup h7
        obtain ⟨l₁, l₂, hsplit, _⟩ := List.lookup_eq_some_iff.mp hl
        have hmem : (c, l) ∈ ctx.popular_bitflips := by
          rw [hsplit]
          exact List.mem_append_right _ (List.mem_cons_self _ _)
        have h := hbf c l hmem t hsl
        exact ⟨h.1, h.2, Or.inr h7⟩

/-- C1 witness: the emitted bitflip target `react` of candidate `reacu`
is popular and differs from the candidate. -/
theorem emitted_target_popular_ne_owner_witness :
    "react".toList ∈ ctxBitflip.popular ∧ "react".toList ≠ "reacu".toList ∧
      (same_author ctxBitflip "reacu".toList "react".toList = false ∨
        "react".toList ∈ bitflips ctxBitflip "reacu".toList) :=
  emitted_target_popular_ne_owner ctxBitflip nlpAll "reacu".toList
    [("react".toList, (100 : ℚ))] "react".toList 100
    (fun k l hkl q hq => by
      obtain ⟨hk, hlv⟩ := Prod.mk.injEq .. |>.mp (List.mem_singleton.mp hkl)
      rw [hlv] at hq
      obtain rfl := List.mem_singleton.mp hq
      rw [hk]
      exact ⟨by decide, by decide⟩)
    rfl (by decide)

/-- C1 counterexample: candidate `reacu` is a single bitflip of popular
`react` and shares its owner `A`; the pipeline still emits `react`
because the bitflip lookup bypasses the shared-owner check, falsifying
the claimed owner-disjointness. -/
theorem bitflip_target_shares_owner :
    get_typosquatting_targets ctxBitflip nlpAll "reacu".toList =
      .ok [("react".toList, (100 : ℚ))] ∧
    same_author ctxBitflip "reacu".toList "react".toList = true :=
  ⟨rfl, rfl⟩

/-- C6: the claim fails on the code.  For popular name `aJ`, flipping
bit 6 of the final byte `J` (0x4A) yields `'\n'` (0x0A); the mutant
`a\n` passes `CRATE_NAME_REGEX.search` (Python's `$` matches before a
trailing newline) and is recorded as an index key with generator list
`[aJ]`, although it does not match `[A-Za-z0-9_-]+` exactly. -/
theorem newline_mutant_recorded :
    ['a', '\n'] ∈ blips "aJ".toList ∧
    validCrateName ['a', '\n'] = false ∧
    (generate_bitflips ["aJ".toList]).lookup ['a', '\n'] =
      some ["aJ".toList] :=
  ⟨by decide, rfl, by decide⟩

/-- C8: within one run the emitted alert stream is strictly ascending in
candidate name: any earlier alert has the lexicographically smaller
name. -/
theorem alerts_sorted (ctx : Ctx) (nlp : Nlp) (al : List Alert)
    (hnd : ctx.crateNames.Nodup) (hok : mainAlerts ctx nlp = .ok al) :
    al.Pairwise (fun a b => nameLt a.name b.name = true) := by
  unfold mainAlerts at hok
  apply detectLoop_pairwise ?_ hok
  have hsorted := pairwise_sortNames ctx.crateNames
  have hnd2 : (sortNames ctx.crateNames).Nodup :=
    (perm_sortNames ctx.crateNames).nodup_iff.mpr hnd
  have hand := hsorted.and hnd2
  exact hand.imp (fun hab => nameLt_of_le_of_ne _ _ hab.1 hab.2)

/-- C8 witness: the example run emits the single alert for `reacu`,
trivially sorted. -/
theorem alerts_sorted_witness :
    List.Pairwise (fun a b : Alert => nameLt a.name b.name = true)
      [{ name := "reacu".toList, downloads := 5,
         targets := [("react".toList, (100 : ℚ))] }] :=
  alerts_sorted ctxBitflip nlpAll
    [{ name := "reacu".toList, downloads := 5,
       targets := [("react".toList, (100 : ℚ))] }]
    (by decide) rfl
